import Mathlib

/-!
Verification development for the phylogenetic-tree text-processing core of
the biolopy repository (`aligons.db.phylo`).  The module's Python source is
not shipped here, so every definition below is modelled from the natural
language specification (spec.md sections 3 and 4), pinned where the spec is
silent by the repository's own test suite `tests/db/test_phylo.py`.

Strings are embedded as `List Char` (a Lean `String` is a structure over
`List Char`), trees as a mutually inductive rose tree `Node` / `NodeList`,
and the recursive-descent parser threads an explicit remainder, with a fuel
argument that makes the recursion structural; `parse_newick` supplies fuel
`length + 1`, which the round-trip theorems show is always sufficient on
serializer output.
-/

namespace Phylo

/-- Errors of the modelled phylo core: parse failures and the NotFound
condition of the selector functions (spec section 7). -/
inductive PErr where
  | fuelout
  | unbalanced
  | invalidLength
  | expectedEnd
  | trailing
  | notFound
  deriving DecidableEq

/-- Structural characters of the Newick format (spec section 3): labels may
not contain them. -/
def isStructChar (c : Char) : Bool :=
  c = '(' || c = ')' || c = ',' || c = ':' || c = ';'

/-- A character that may appear inside a label or length token. -/
def notStructChar (c : Char) : Bool := !(isStructChar c)

/-- Decimal digit, written out so membership facts are decidable by cases. -/
def digitChar (c : Char) : Bool :=
  c = '0' || c = '1' || c = '2' || c = '3' || c = '4' ||
  c = '5' || c = '6' || c = '7' || c = '8' || c = '9'

/-- Modelled from the spec: `length := ':' signed-decimal-number`
(section 4.2).  An optional sign, then digits with at most one decimal
point and at least one digit. -/
def isValidNumber (tok : List Char) : Bool :=
  let body := match tok with
    | c :: r => if c = '-' ∨ c = '+' then r else tok
    | [] => []
  body.any digitChar &&
  body.all (fun c => digitChar c || c = '.') &&
  (body.filter (fun c => c = '.')).length ≤ 1

mutual
/-- Modelled from the spec: the sole structural entity `Node`
(spec section 3) — label text, optional branch-length token (kept as its
original text so serialization can be byte-exact, section 4.3), and an
ordered children sequence.  The children live in the mutually inductive
`NodeList` so that recursion over trees is structural. -/
inductive Node where
  | mk : List Char → Option (List Char) → NodeList → Node

/-- Ordered sequence of child nodes. -/
inductive NodeList where
  | nil : NodeList
  | cons : Node → NodeList → NodeList
end

def Node.label : Node → List Char
  | .mk l _ _ => l

def Node.lenTok : Node → Option (List Char)
  | .mk _ len _ => len

def Node.children : Node → NodeList
  | .mk _ _ cs => cs

/-- View of a `NodeList` as an ordinary list. -/
def NodeList.toList : NodeList → List Node
  | .nil => []
  | .cons c cs => c :: cs.toList

/-- List-shaped induction for `NodeList` (no motive on the head nodes). -/
theorem NodeList.listInd {Q : NodeList → Prop} (hnil : Q .nil)
    (hcons : ∀ c cs, Q cs → Q (.cons c cs)) : ∀ ts, Q ts :=
  @NodeList.rec (fun _ => True) Q (fun _ _ _ _ => trivial) hnil
    (fun c cs _ ih => hcons c cs ih)

/-- Rose-tree induction for `Node`: to prove a property of every node it
suffices to prove it for a node given it for all of its children. -/
theorem Node.nodeInd {P : Node → Prop}
    (h : ∀ l len cs, (∀ c ∈ cs.toList, P c) → P (Node.mk l len cs)) :
    ∀ t, P t :=
  @Node.rec P (fun ts => ∀ c ∈ ts.toList, P c) h
    (fun _ hc => by simp [NodeList.toList] at hc)
    (fun c cs hc hcs d hd => by
      rcases (by simpa [NodeList.toList] using hd) with rfl | hd
      · exact hc
      · exact hcs d hd)

/-- Pointwise version of `Node.nodeInd` for node lists. -/
theorem NodeList.listIndMem {P : Node → Prop}
    (h : ∀ l len cs, (∀ c ∈ cs.toList, P c) → P (Node.mk l len cs)) :
    ∀ ts, ∀ c ∈ NodeList.toList ts, P c := by
  intro ts c hc
  exact Node.nodeInd h c

/-- Parse an optional `':' length` suffix; the length token text must be a
valid number (spec section 4.2). -/
def parseLengthTok (cs : List Char) : Except PErr (Option (List Char) × List Char) :=
  match cs with
  | c :: rest =>
    if c = ':' then
      let tok := rest.takeWhile notStructChar
      if isValidNumber tok then .ok (some tok, rest.dropWhile notStructChar)
      else .error .invalidLength
    else .ok (none, cs)
  | [] => .ok (none, [])

mutual
/-- Modelled from the spec: recursive-descent `subtree := clade | leaf`
(section 4.2).  Returns the parsed node and the unconsumed remainder; the
fuel argument only makes the recursion structural. -/
def parseSubtree : Nat → List Char → Except PErr (Node × List Char)
  | 0, _ => .error .fuelout
  | fuel + 1, cs =>
    if cs.head? = some '(' then
      match parseSubtree fuel cs.tail with
      | .error e => .error e
      | .ok (c0, r1) =>
        match parseSiblings fuel r1 with
        | .error e => .error e
        | .ok (sibs, r2) =>
          if r2.head? = some ')' then
            let lbl := r2.tail.takeWhile notStructChar
            match parseLengthTok (r2.tail.dropWhile notStructChar) with
            | .error e => .error e
            | .ok (len, r3) => .ok (Node.mk lbl len (NodeList.cons c0 sibs), r3)
          else .error .unbalanced
    else
      let lbl := cs.takeWhile notStructChar
      match parseLengthTok (cs.dropWhile notStructChar) with
      | .error e => .error e
      | .ok (len, r1) => .ok (Node.mk lbl len NodeList.nil, r1)

/-- Parse the `(',' subtree)*` tail of a clade. -/
def parseSiblings : Nat → List Char → Except PErr (NodeList × List Char)
  | 0, _ => .error .fuelout
  | fuel + 1, cs =>
    if cs.head? = some ',' then
      match parseSubtree fuel cs.tail with
      | .error e => .error e
      | .ok (n, r1) =>
        match parseSiblings fuel r1 with
        | .error e => .error e
        | .ok (ns, r2) => .ok (NodeList.cons n ns, r2)
    else .ok (NodeList.nil, cs)
end

/-- Modelled from the spec: `tree := subtree ';'`; on completion the cursor
must sit exactly at the terminating `';'`, and trailing characters are an
error (spec section 4.2). -/
def parse_newickL (cs : List Char) : Except PErr Node :=
  match parseSubtree (cs.length + 1) cs with
  | .error e => .error e
  | .ok (t, rs) =>
    match rs with
    | c :: rest =>
      if c = ';' then (if rest = [] then .ok t else .error .trailing)
      else .error .expectedEnd
    | [] => .error .expectedEnd

/-- Length suffix text: `':' ++ tok` when a length is present. -/
def serLen : Option (List Char) → List Char
  | none => []
  | some tok => ':' :: tok

mutual
/-- Modelled from the spec: the serializer `newickize` without the final
`';'` — `(children)label:length` for internal nodes, `label:length` for
tips (section 4.3). -/
def serializeNode : Node → List Char
  | .mk l len .nil => l ++ serLen len
  | .mk l len (.cons c0 cs) =>
    '(' :: (serializeNode c0 ++ serializeSiblings cs ++ ')' :: (l ++ serLen len))

/-- Comma-prefixed serialization of every node of the list. -/
def serializeSiblings : NodeList → List Char
  | .nil => []
  | .cons c cs => ',' :: (serializeNode c ++ serializeSiblings cs)
end

/-- Serializer including the terminating `';'` (appended only at the
outermost call, spec section 4.3). -/
def newickizeL (t : Node) : List Char := serializeNode t ++ [';']

/-- String-level parser entry point, named as in the source module. -/
def parse_newick (s : String) : Except PErr Node := parse_newickL s.data

/-- String-level serializer entry point, named as in the source module. -/
def newickize (t : Node) : String := String.mk (newickizeL t)

/-- Modelled from the spec: strips every whitespace character
(spec section 4.1). -/
def remove_whitespace (s : String) : String :=
  String.mk (s.data.filter (fun c => !c.isWhitespace))

/-- Modelled from the spec: deletes every `':' length` token, leaving all
other structure and labels character-for-character identical
(spec section 4.4).  A `':'` deletes itself together with the following
run of non-structural characters. -/
def removeLengthsL : List Char → List Char
  | [] => []
  | c :: r =>
    if c = ':' then (removeLengthsL r).dropWhile notStructChar
    else c :: removeLengthsL r

def remove_lengths (s : String) : String := String.mk (removeLengthsL s.data)

/-- Modelled from the spec: removes every label attached to a non-tip node
— exactly the label runs that immediately follow a `')'` — leaving tip
labels and branch-length tokens untouched (spec section 4.6). -/
def removeInnerNamesL : List Char → List Char
  | [] => []
  | c :: r =>
    if c = ')' then ')' :: (removeInnerNamesL r).dropWhile notStructChar
    else c :: removeInnerNamesL r

def remove_inner_names (s : String) : String := String.mk (removeInnerNamesL s.data)

/-- Label scanner: walking the text from the right, return the maximal
non-structural run at the head of the text together with the list of
completed label tokens after it.  A run preceded by `':'` is a length
token and is discarded; every other run delimited by structural
characters is a label (spec section 4.5). -/
def labelScan : List Char → List Char × List (List Char)
  | [] => ([], [])
  | c :: r =>
    let p := labelScan r
    if c = ':' then ([], p.2)
    else if isStructChar c then ([], (if p.1 = [] then [] else [p.1]) ++ p.2)
    else (c :: p.1, p.2)

/-- Modelled from the spec: every label (tip, inner, root) in the order
the label tokens appear in the text (spec section 4.5). -/
def extract_namesL (cs : List Char) : List (List Char) :=
  let p := labelScan cs
  (if p.1 = [] then [] else [p.1]) ++ p.2

def extract_names (s : String) : List String :=
  (extract_namesL s.data).map String.mk

/-- Split a character run at `'_'` boundaries. -/
def splitU : List Char → List (List Char)
  | [] => [[]]
  | c :: r =>
    match splitU r with
    | [] => [[c]]
    | p :: ps => if c = '_' then [] :: p :: ps else (c :: p) :: ps

/-- ASCII lower-casing of a single character (spec section 4.7 lowercases
the characters that enter a shorten code). -/
def asciiLower (c : Char) : Char :=
  if 'A' ≤ c ∧ c ≤ 'Z' then Char.ofNat (c.toNat + 32) else c

def isAsciiLetter (c : Char) : Bool :=
  ('A' ≤ c && c ≤ 'Z') || ('a' ≤ c && c ≤ 'z')

def isAsciiLower (c : Char) : Bool := 'a' ≤ c && c ≤ 'z'

/-- Modelled from the spec: a label of the shape
`genus '_' species [_qualifiers...]` — an alphabetic genus, underscore,
lowercase species epithet, optional further qualifiers (spec section 4.7;
the repository's tests apply the shortening to lowercase genus names as
well, so the genus is matched case-insensitively). -/
def matchesGS (run : List Char) : Bool :=
  match splitU run with
  | g :: sp :: _ =>
    !g.isEmpty && g.all isAsciiLetter && !sp.isEmpty && sp.all isAsciiLower
  | _ => false

/-- Modelled from the spec: 4-character shorten code — lowercased first
character of the genus plus first three characters of the species epithet
(spec section 4.7).  A run without the `genus '_' species` shape is
returned unchanged. -/
def shortenL (run : List Char) : List Char :=
  match splitU run with
  | g :: sp :: _ => (g.take 1).map asciiLower ++ sp.take 3
  | _ => run

def shorten (name : String) : String := String.mk (shortenL name.data)

/-- Shorten a label run only when it matches the `genus '_' species`
pattern. -/
def shortenIfMatch (run : List Char) : List Char :=
  if matchesGS run then shortenL run else run

/-- Companion of `labelScan` for `shorten_names`: returns the untouched
head run together with the already-processed remainder of the text. -/
def shortenScan : List Char → List Char × List Char
  | [] => ([], [])
  | c :: r =>
    let p := shortenScan r
    if c = ':' then ([], ':' :: (p.1 ++ p.2))
    else if isStructChar c then ([], c :: (shortenIfMatch p.1 ++ p.2))
    else (c :: p.1, p.2)

/-- Modelled from the spec: applies `shorten` to every label of the text
that matches the `genus '_' species` pattern and leaves every other label
and every length token unchanged (spec section 4.7). -/
def shorten_namesL (cs : List Char) : List Char :=
  let p := shortenScan cs
  shortenIfMatch p.1 ++ p.2

def shorten_names (s : String) : String := String.mk (shorten_namesL s.data)

mutual
/-- Labels of the tips of a subtree, in left-to-right order (which equals
the order of their tokens in the serialized text). -/
def tipsN : Node → List (List Char)
  | .mk l _ .nil => [l]
  | .mk _ _ (.cons c cs) => tipsL (.cons c cs)

def tipsL : NodeList → List (List Char)
  | .nil => []
  | .cons c cs => tipsN c ++ tipsL cs
end

/-- Modelled from the spec: tip labels of the parsed tree in text order;
the tip/inner distinction needs the structure, so the text is parsed
(spec section 4.5).  Empty labels carry no token and are not reported. -/
def extract_tip_names (s : String) : Except PErr (List String) :=
  match parse_newickL s.data with
  | .error e => .error e
  | .ok t => .ok (((tipsN t).filter (fun l => !l.isEmpty)).map String.mk)

mutual
/-- First node (in preorder) whose own label equals the query. -/
def findCladeN (lbl : List Char) : Node → Option Node
  | .mk l len cs =>
    if l = lbl then some (.mk l len cs) else findCladeL lbl cs

def findCladeL (lbl : List Char) : NodeList → Option Node
  | .nil => none
  | .cons c cs =>
    match findCladeN lbl c with
    | some t => some t
    | none => findCladeL lbl cs
end

/-- Modelled from the spec: the minimal well-formed Newick substring rooted
at the node carrying the given label, including that node's own label and
length suffix, terminated by `';'`; NotFound when no node carries the
label (spec section 4.8). -/
def select_clade (s : String) (lbl : String) : Except PErr String :=
  match parse_newickL s.data with
  | .error e => .error e
  | .ok t =>
    match findCladeN lbl.data t with
    | none => .error .notFound
    | some sub => .ok (String.mk (newickizeL sub))

mutual
/-- Modelled from the spec: prune to the requested tip set — drop children
whose pruned result is empty, splice out an internal node when exactly one
child survives (discarding the spliced node's own label and length), keep
a requested tip as-is (spec section 4.9). -/
def pruneN (tips : List (List Char)) : Node → Option Node
  | .mk l len .nil => if l ∈ tips then some (.mk l len .nil) else none
  | .mk l len (.cons c cs) =>
    match pruneL tips (.cons c cs) with
    | .nil => none
    | .cons k .nil => some k
    | .cons k1 (.cons k2 ks) => some (.mk l len (.cons k1 (.cons k2 ks)))

def pruneL (tips : List (List Char)) : NodeList → NodeList
  | .nil => .nil
  | .cons c cs =>
    match pruneN tips c with
    | none => pruneL tips cs
    | some k => .cons k (pruneL tips cs)
end

/-- Modelled from the spec: the induced subtree containing exactly the
requested tips, serialized back to text (spec section 4.9).  When none of
the requested tips occur the result is empty and NotFound is raised. -/
def select_tips (s : String) (tips : List String) : Except PErr String :=
  match parse_newickL s.data with
  | .error e => .error e
  | .ok t =>
    match pruneN (tips.map (fun x => x.data)) t with
    | none => .error .notFound
    | some t' => .ok (String.mk (newickizeL t'))

/-- Dash run drawn after a `'┬'` connector at depth `d` for graph width
`w`; clamped below at one dash. -/
def dashRun (w d : Nat) : Nat := Nat.max 1 (2 * (w - d) - 3)

/-- Prefix the first rendered line with `pre` and every further line with
`cont`. -/
def prefixLines (pre cont : List Char) : List (List Char) → List (List Char)
  | [] => []
  | h :: t => (pre ++ h) :: t.map (fun ln => cont ++ ln)

mutual
/-- Modelled from the spec: the box-drawing renderer (spec section 4.10),
pinned to the exact reference outputs of the repository's tests for widths
1 through 4.  At width 1 every node is printed on its own line, labels
included; at widths of at least 2 an internal node is drawn as `'┬'` plus
a depth-dependent dash run inline with its first child, and internal
labels are omitted. -/
def renderNode (w d : Nat) : Node → List (List Char)
  | .mk l _ .nil => [' ' :: l]
  | .mk l _ (.cons c0 cs) =>
    if w ≤ 1 then
      (' ' :: l) :: renderKids w (d + 1) (.cons c0 cs)
    else
      match renderNode w (d + 1) c0 with
      | [] => renderKids w (d + 1) cs
      | h :: t =>
        ('┬' :: List.replicate (dashRun w d) '─' ++ h) ::
          (t.map (fun ln => List.replicate (dashRun w d + 1) ' ' ++ ln) ++
            renderKids w (d + 1) cs)

/-- Render the non-first children: `'├'`-prefixed except the last, which
gets `'└'`; continuation lines get `'│'` plus a space, or blanks under the
last child. -/
def renderKids (w d : Nat) : NodeList → List (List Char)
  | .nil => []
  | .cons c .nil => prefixLines ['└', '─'] [' ', ' '] (renderNode w d c)
  | .cons c (.cons c2 cs) =>
    prefixLines ['├', '─'] ['│', ' '] (renderNode w d c) ++
      renderKids w d (.cons c2 cs)
end

/-- Lines printed by `print_graph`, without the newline terminators. -/
def print_graph_lines (s : String) (w : Nat) : Except PErr (List String) :=
  match parseSubtree (s.data.length + 1) s.data with
  | .error e => .error e
  | .ok (t, _) => .ok ((renderNode w 0 t).map String.mk)

/-- Modelled from the spec: the full rendered output of `print_graph` —
every line terminated by a newline (spec section 4.10; the test tree is
accepted without a terminating `';'`, so the renderer parses a subtree and
ignores the remainder). -/
def print_graph (s : String) (w : Nat) : Except PErr String :=
  match parseSubtree (s.data.length + 1) s.data with
  | .error e => .error e
  | .ok (t, _) => .ok (String.mk (((renderNode w 0 t).map (fun ln => ln ++ ['\n'])).flatten))

end Phylo

section Sanity
open Phylo

example : remove_whitespace " ( (A , \t B),\n    C) ;\n " = "((A,B),C);" := by rfl

def sampleTree : Node :=
  Node.mk "poaceae".data (some "0.5".data)
    (.cons (Node.mk "bep".data (some "0.3".data)
      (.cons (Node.mk "oryza_sativa".data (some "0.1".data) .nil)
        (.cons (Node.mk "hordeum_vulgare".data (some "0.2".data) .nil) .nil)))
      (.cons (Node.mk "panicum_hallii_fil2".data (some "0.4".data) .nil) .nil))

example :
    newickize sampleTree =
      "((oryza_sativa:0.1,hordeum_vulgare:0.2)bep:0.3,panicum_hallii_fil2:0.4)poaceae:0.5;" := by
  rfl

example :
    parse_newick
      "((oryza_sativa:0.1,hordeum_vulgare:0.2)bep:0.3,panicum_hallii_fil2:0.4)poaceae:0.5;" =
      .ok sampleTree := by rfl

example : parse_newick "((A,B);" = .error PErr.unbalanced := by rfl
example : parse_newick "A,B;" = .error PErr.expectedEnd := by rfl
example : parse_newick "(A:1x,B);" = .error PErr.invalidLength := by rfl
example : parse_newick "(A,B);x" = .error PErr.trailing := by rfl
example : parse_newick "(A,B)" = .error PErr.expectedEnd := by rfl

example :
    remove_lengths
      "((oryza_sativa:0.1,hordeum_vulgare:0.2)bep:0.3,panicum_hallii_fil2:0.4)poaceae:0.5;" =
      "((oryza_sativa,hordeum_vulgare)bep,panicum_hallii_fil2)poaceae;" := by rfl

example :
    remove_inner_names
      "((oryza_sativa:0.1,hordeum_vulgare:0.2)bep:0.3,panicum_hallii_fil2:0.4)poaceae:0.5;" =
      "((oryza_sativa:0.1,hordeum_vulgare:0.2):0.3,panicum_hallii_fil2:0.4):0.5;" := by rfl

example :
    extract_names
      "((oryza_sativa:0.1,hordeum_vulgare:0.2)bep:0.3,panicum_hallii_fil2:0.4)poaceae:0.5;" =
      ["oryza_sativa", "hordeum_vulgare", "bep", "panicum_hallii_fil2", "poaceae"] := by rfl

example : shorten "Oryza_sativa" = "osat" := by rfl
example : shorten "panicum_hallii_fil2" = "phal" := by rfl

example :
    shorten_names
      "((oryza_sativa:0.1,hordeum_vulgare:0.2)bep:0.3,panicum_hallii_fil2:0.4)poaceae:0.5;" =
      "((osat:0.1,hvul:0.2)bep:0.3,phal:0.4)poaceae:0.5;" := by rfl

example : shorten_names "((osat,hvul),phal);" = "((osat,hvul),phal);" := by rfl

example :
    select_clade
      "((oryza_sativa:0.1,hordeum_vulgare:0.2)bep:0.3,panicum_hallii_fil2:0.4)poaceae:0.5;"
      "bep" = .ok "(oryza_sativa:0.1,hordeum_vulgare:0.2)bep:0.3;" := by rfl

example :
    select_tips "((((A,B),(C,D)),(E,(F,G))),H);" ["A", "C", "E"] = .ok "((A,C),E);" := by rfl

example :
    extract_tip_names "((((A,B),(C,D)),(E,(F,G))),H);" =
      .ok ["A", "B", "C", "D", "E", "F", "G", "H"] := by rfl

example :
    print_graph "(one:1,(two:2,three:3)anc:0.5)root" 1 =
      .ok " root\n├─ one\n└─ anc\n  ├─ two\n  └─ three\n" := by rfl

example :
    print_graph "(one:1,(two:2,three:3)anc:0.5)root" 2 =
      .ok "┬─ one\n└─┬─ two\n  └─ three\n" := by rfl

example :
    print_graph "(one:1,(two:2,three:3)anc:0.5)root" 3 =
      .ok "┬─── one\n└─┬─ two\n  └─ three\n" := by rfl

example :
    print_graph "(one:1,(two:2,three:3)anc:0.5)root" 4 =
      .ok "┬───── one\n└─┬─── two\n  └─ three\n" := by rfl

end Sanity

namespace Phylo

/-! ## Order invariance of label extraction under length removal -/

theorem labelScan_dropWhile (l : List Char) :
    labelScan (l.dropWhile notStructChar) = ([], (labelScan l).2) := by
  induction l with
  | nil => rfl
  | cons c r ih =>
    rw [List.dropWhile_cons]
    by_cases hc : c = ':'
    · subst hc
      simp [notStructChar, isStructChar, labelScan]
    · cases hs : isStructChar c with
      | true =>
        simp [notStructChar, hs, labelScan, hc]
      | false =>
        simp [notStructChar, hs, labelScan, hc, ih]

theorem labelScan_removeLengths (l : List Char) :
    labelScan (removeLengthsL l) = labelScan l := by
  induction l with
  | nil => rfl
  | cons c r ih =>
    by_cases hc : c = ':'
    · subst hc
      rw [removeLengthsL, if_pos rfl, labelScan_dropWhile, ih]
      simp [labelScan]
    · cases hs : isStructChar c with
      | true =>
        rw [removeLengthsL, if_neg hc]
        simp [labelScan, hs, hc, ih]
      | false =>
        rw [removeLengthsL, if_neg hc]
        simp [labelScan, hs, hc, ih]

theorem extract_namesL_removeLengths (l : List Char) :
    extract_namesL (removeLengthsL l) = extract_namesL l := by
  simp [extract_namesL, labelScan_removeLengths]

/-- Claim C6: for every Newick text `s`,
`extract_names (remove_lengths s) = extract_names s` — removing every
branch-length token never changes the sequence of labels that
`extract_names` returns. -/
theorem C6_order_invariance (s : String) :
    extract_names (remove_lengths s) = extract_names s := by
  simp [extract_names, remove_lengths, extract_namesL_removeLengths]

end Phylo

namespace Phylo

/-! ## Commutation of length removal and inner-label removal -/

theorem removeLengthsL_dropWhile (l : List Char) :
    removeLengthsL (l.dropWhile notStructChar) =
      (removeLengthsL l).dropWhile notStructChar := by
  induction l with
  | nil => rfl
  | cons c r ih =>
    rw [List.dropWhile_cons]
    by_cases hc : c = ':'
    · subst hc
      rw [if_neg (by simp [notStructChar, isStructChar])]
      simp [removeLengthsL, List.dropWhile_idempotent]
    · cases hs : isStructChar c with
      | true =>
        rw [if_neg (by simp [notStructChar, hs])]
        simp only [removeLengthsL, if_neg hc]
        rw [List.dropWhile_cons, if_neg (by simp [notStructChar, hs])]
      | false =>
        rw [if_pos (by simp [notStructChar, hs])]
        simp only [removeLengthsL, if_neg hc]
        rw [List.dropWhile_cons, if_pos (by simp [notStructChar, hs]), ih]

theorem removeInnerNamesL_dropWhile (l : List Char) :
    removeInnerNamesL (l.dropWhile notStructChar) =
      (removeInnerNamesL l).dropWhile notStructChar := by
  induction l with
  | nil => rfl
  | cons c r ih =>
    rw [List.dropWhile_cons]
    by_cases hc : c = ')'
    · subst hc
      rw [if_neg (by simp [notStructChar, isStructChar])]
      simp only [removeInnerNamesL, if_pos rfl, if_true, eq_self_iff_true]
      rw [List.dropWhile_cons, if_neg (by simp [notStructChar, isStructChar])]
    · cases hs : isStructChar c with
      | true =>
        rw [if_neg (by simp [notStructChar, hs])]
        simp only [removeInnerNamesL, if_neg hc]
        rw [List.dropWhile_cons, if_neg (by simp [notStructChar, hs])]
      | false =>
        rw [if_pos (by simp [notStructChar, hs])]
        simp only [removeInnerNamesL, if_neg hc]
        rw [List.dropWhile_cons, if_pos (by simp [notStructChar, hs]), ih]

theorem removeLengths_removeInner_commL (l : List Char) :
    removeLengthsL (removeInnerNamesL l) = removeInnerNamesL (removeLengthsL l) := by
  induction l with
  | nil => rfl
  | cons c r ih =>
    by_cases hc1 : c = ')'
    · subst hc1
      simp only [removeInnerNamesL, if_pos rfl, if_true, eq_self_iff_true,
        removeLengthsL, if_neg (by decide : ¬ ((')' : Char) = ':'))]
      rw [removeLengthsL_dropWhile, ih]
    · by_cases hc2 : c = ':'
      · subst hc2
        simp only [removeInnerNamesL, if_neg hc1, removeLengthsL, if_pos rfl,
          if_true, eq_self_iff_true]
        rw [removeInnerNamesL_dropWhile, ih]
      · simp only [removeInnerNamesL, if_neg hc1, removeLengthsL, if_neg hc2, ih]

/-- Claim C9: `remove_lengths` and `remove_inner_names` commute — each
deletes only its own token kind and leaves the rest of the text
unchanged. -/
theorem C9_remove_commute (s : String) :
    remove_lengths (remove_inner_names s) = remove_inner_names (remove_lengths s) := by
  simp [remove_lengths, remove_inner_names, removeLengths_removeInner_commL]

end Phylo

namespace Phylo

/-! ## Name shortening: supporting lemmas and idempotence -/

theorem splitU_ne_nil (l : List Char) : splitU l ≠ [] := by
  induction l with
  | nil => simp [splitU]
  | cons c r ih =>
    rcases hs : splitU r with _ | ⟨p, ps⟩
    · exact absurd hs ih
    · by_cases hc : c = '_' <;> simp [splitU, hs, hc]

theorem mem_splitU_no_underscore (l : List Char) :
    ∀ p ∈ splitU l, '_' ∉ p := by
  induction l with
  | nil => simp [splitU]
  | cons c r ih =>
    rcases hs : splitU r with _ | ⟨p, ps⟩
    · exact absurd hs (splitU_ne_nil r)
    · intro q hq
      by_cases hc : c = '_'
      · simp [splitU, hs, hc] at hq
        rcases hq with rfl | heq | hq
        · simp
        · exact heq ▸ ih p (hs ▸ List.mem_cons_self p ps)
        · exact ih q (hs ▸ List.mem_cons_of_mem p hq)
      · simp [splitU, hs, hc] at hq
        rcases hq with rfl | hq
        · have hp : '_' ∉ p := ih p (hs ▸ List.mem_cons_self p ps)
          simp only [List.mem_cons]
          rintro (rfl | hin)
          · exact hc rfl
          · exact hp hin
        · exact ih q (hs ▸ List.mem_cons_of_mem p hq)

theorem mem_splitU_subset (l : List Char) :
    ∀ p ∈ splitU l, ∀ c ∈ p, c ∈ l := by
  induction l with
  | nil => simp [splitU]
  | cons c r ih =>
    rcases hs : splitU r with _ | ⟨p, ps⟩
    · exact absurd hs (splitU_ne_nil r)
    · intro q hq x hx
      by_cases hc : c = '_'
      · simp [splitU, hs, hc] at hq
        rcases hq with rfl | heq | hq
        · simp at hx
        · exact List.mem_cons_of_mem _
            (ih p (hs ▸ List.mem_cons_self p ps) x (heq ▸ hx))
        · exact List.mem_cons_of_mem _ (ih q (hs ▸ List.mem_cons_of_mem p hq) x hx)
      · simp [splitU, hs, hc] at hq
        rcases hq with rfl | hq
        · rcases List.mem_cons.mp hx with rfl | hx
          · exact List.mem_cons_self _ _
          · exact List.mem_cons_of_mem _
              (ih p (hs ▸ List.mem_cons_self p ps) x hx)
        · exact List.mem_cons_of_mem _ (ih q (hs ▸ List.mem_cons_of_mem p hq) x hx)

theorem splitU_no_underscore (l : List Char) (h : '_' ∉ l) : splitU l = [l] := by
  induction l with
  | nil => rfl
  | cons c r ih =>
    have hc : ¬ c = '_' := by
      intro hc
      exact h (hc ▸ List.mem_cons_self c r)
    have hr : '_' ∉ r := fun hin => h (List.mem_cons_of_mem c hin)
    simp [splitU, ih hr, hc]

theorem char_toNat_ofNat (n : Nat) (h : n.isValidChar) : (Char.ofNat n).toNat = n := by
  simp [Char.ofNat, Char.toNat, h, Char.ofNatAux, UInt32.toNat, BitVec.toNat_ofNatLt]

theorem char_le_toNat (c d : Char) (h : c ≤ d) : c.toNat ≤ d.toNat := by
  rw [Char.le_def] at h
  exact h

theorem asciiLower_toNat_upper (c : Char) (h : 'A' ≤ c ∧ c ≤ 'Z') :
    (asciiLower c).toNat = c.toNat + 32 := by
  have h2 : c.toNat ≤ 90 := char_le_toNat c 'Z' h.2
  rw [asciiLower, if_pos h]
  exact char_toNat_ofNat _ (Or.inl (by omega))

theorem asciiLower_ne_underscore (c : Char) (h : c ≠ '_') : asciiLower c ≠ '_' := by
  by_cases hu : 'A' ≤ c ∧ c ≤ 'Z'
  · intro he
    have h1 : 65 ≤ c.toNat := char_le_toNat 'A' c hu.1
    have ht := congrArg Char.toNat he
    rw [asciiLower_toNat_upper c hu] at ht
    rw [show ('_' : Char).toNat = 95 by decide] at ht
    omega
  · rw [asciiLower, if_neg hu]
    exact h

theorem asciiLower_notStruct (c : Char) (h : notStructChar c = true) :
    notStructChar (asciiLower c) = true := by
  by_cases hu : 'A' ≤ c ∧ c ≤ 'Z'
  · have h1 : 65 ≤ c.toNat := char_le_toNat 'A' c hu.1
    have h2 : c.toNat ≤ 90 := char_le_toNat c 'Z' hu.2
    have ht := asciiLower_toNat_upper c hu
    simp only [notStructChar, isStructChar, Bool.not_eq_true', Bool.or_eq_false_iff,
      decide_eq_false_iff_not]
    refine ⟨⟨⟨⟨?_, ?_⟩, ?_⟩, ?_⟩, ?_⟩ <;> intro he <;> rw [he] at ht
    · rw [show ('(' : Char).toNat = 40 by decide] at ht; omega
    · rw [show (')' : Char).toNat = 41 by decide] at ht; omega
    · rw [show (',' : Char).toNat = 44 by decide] at ht; omega
    · rw [show (':' : Char).toNat = 58 by decide] at ht; omega
    · rw [show (';' : Char).toNat = 59 by decide] at ht; omega
  · rw [asciiLower, if_neg hu]
    exact h

theorem letter_notStruct (c : Char) (h : isAsciiLetter c = true) :
    notStructChar c = true := by
  simp only [isAsciiLetter, Bool.or_eq_true, Bool.and_eq_true, decide_eq_true_eq] at h
  have h5 : c ≠ '(' ∧ c ≠ ')' ∧ c ≠ ',' ∧ c ≠ ':' ∧ c ≠ ';' := by
    rcases h with ⟨h1, h2⟩ | ⟨h1, h2⟩ <;>
      refine ⟨?_, ?_, ?_, ?_, ?_⟩ <;> intro he <;> subst he <;> revert h1 h2 <;> decide
  simp [notStructChar, isStructChar, h5.1, h5.2.1, h5.2.2.1, h5.2.2.2.1, h5.2.2.2.2]

theorem shortenL_no_underscore (run : List Char) (h : matchesGS run = true) :
    '_' ∉ shortenL run := by
  rcases hs : splitU run with _ | ⟨g, _ | ⟨sp, rest⟩⟩
  · exact absurd hs (splitU_ne_nil run)
  · simp [matchesGS, hs] at h
  · simp only [shortenL, hs]
    intro hin
    rcases List.mem_append.mp hin with hin | hin
    · rcases List.mem_map.mp hin with ⟨x, hx, hlow⟩
      have hxg : x ∈ g := List.mem_of_mem_take hx
      have hne : x ≠ '_' :=
        fun hx' => mem_splitU_no_underscore run g (hs ▸ List.mem_cons_self _ _) (hx' ▸ hxg)
      exact asciiLower_ne_underscore x hne hlow
    · have hsp : '_' ∈ sp := List.mem_of_mem_take hin
      exact mem_splitU_no_underscore run sp
        (hs ▸ List.mem_cons_of_mem _ (List.mem_cons_self _ _)) hsp

theorem shortenL_all_notStruct (run : List Char) (h : matchesGS run = true) :
    (shortenL run).all notStructChar = true := by
  rcases hs : splitU run with _ | ⟨g, _ | ⟨sp, rest⟩⟩
  · exact absurd hs (splitU_ne_nil run)
  · simp [matchesGS, hs] at h
  · simp only [matchesGS, hs, Bool.and_eq_true] at h
    simp only [shortenL, hs]
    rw [List.all_append, Bool.and_eq_true]
    constructor
    · rw [List.all_eq_true]
      intro x hx
      rcases List.mem_map.mp hx with ⟨y, hy, rfl⟩
      have hyg : y ∈ g := List.mem_of_mem_take hy
      have hlet : isAsciiLetter y = true := by
        have hg := h.1.1.2
        rw [List.all_eq_true] at hg
        exact hg y hyg
      exact asciiLower_notStruct y (letter_notStruct y hlet)
    · rw [List.all_eq_true]
      intro x hx
      have hxs : x ∈ sp := List.mem_of_mem_take hx
      have hlow : isAsciiLower x = true := by
        have hspall := h.2
        rw [List.all_eq_true] at hspall
        exact hspall x hxs
      refine letter_notStruct x ?_
      simp only [isAsciiLetter, isAsciiLower, Bool.or_eq_true] at hlow ⊢
      exact Or.inr hlow

theorem matchesGS_shortenL_false (run : List Char) (h : matchesGS run = true) :
    matchesGS (shortenL run) = false := by
  have hnu : '_' ∉ shortenL run := shortenL_no_underscore run h
  unfold matchesGS
  rw [splitU_no_underscore _ hnu]

theorem shortenIfMatch_idem (run : List Char) :
    shortenIfMatch (shortenIfMatch run) = shortenIfMatch run := by
  unfold shortenIfMatch
  by_cases h : matchesGS run = true
  · rw [if_pos h, matchesGS_shortenL_false run h]
    simp
  · rw [if_neg h, if_neg h]

theorem shortenIfMatch_all_notStruct (run : List Char)
    (h : run.all notStructChar = true) :
    (shortenIfMatch run).all notStructChar = true := by
  unfold shortenIfMatch
  by_cases hm : matchesGS run = true
  · rw [if_pos hm]
    exact shortenL_all_notStruct run hm
  · rwa [if_neg hm]

theorem shortenScan_fst_notStruct (l : List Char) :
    (shortenScan l).1.all notStructChar = true := by
  induction l with
  | nil => rfl
  | cons c r ih =>
    by_cases hc : c = ':'
    · simp [shortenScan, hc]
    · cases hs : isStructChar c with
      | true => simp [shortenScan, hc, hs]
      | false =>
        simp only [shortenScan, if_neg hc, hs, Bool.false_eq_true, if_false,
          List.all_cons, Bool.and_eq_true]
        exact ⟨by simp [notStructChar, hs], ih⟩

theorem shortenScan_append_notStruct (x y : List Char)
    (hx : x.all notStructChar = true) :
    shortenScan (x ++ y) = (x ++ (shortenScan y).1, (shortenScan y).2) := by
  induction x with
  | nil => simp
  | cons c r ih =>
    rw [List.all_cons, Bool.and_eq_true] at hx
    have hc : ¬ c = ':' := by
      intro hc
      subst hc
      simp [notStructChar, isStructChar] at hx
    have hs : isStructChar c = false := by
      have hx1 := hx.1
      simp only [notStructChar, Bool.not_eq_true'] at hx1
      exact hx1
    rw [List.cons_append]
    simp only [shortenScan, if_neg hc, hs, Bool.false_eq_true, if_false]
    rw [ih hx.2]
    simp

theorem shortenScan_snd_fixed (l : List Char) :
    shortenScan ((shortenScan l).2) = ([], (shortenScan l).2) := by
  induction l with
  | nil => rfl
  | cons c r ih =>
    by_cases hc : c = ':'
    · simp only [shortenScan, hc, if_pos rfl]
      rw [shortenScan_append_notStruct _ _ (shortenScan_fst_notStruct r), ih]
      simp
    · cases hs : isStructChar c with
      | true =>
        simp only [shortenScan, if_neg hc, hs, if_true]
        rw [shortenScan_append_notStruct _ _
          (shortenIfMatch_all_notStruct _ (shortenScan_fst_notStruct r)), ih]
        simp [shortenIfMatch_idem]
      | false =>
        simpa [shortenScan, if_neg hc, hs] using ih

theorem shorten_namesL_idem (l : List Char) :
    shorten_namesL (shorten_namesL l) = shorten_namesL l := by
  unfold shorten_namesL
  rw [shortenScan_append_notStruct _ _
    (shortenIfMatch_all_notStruct _ (shortenScan_fst_notStruct l))]
  rw [shortenScan_snd_fixed]
  simp [shortenIfMatch_idem]

end Phylo

namespace Phylo

/-! ## Claims about shortening and clade selection -/

/-- Stated from the spec's words for comparison with the code model: the
`Genus_species` pattern with a mandatory capitalized genus — capital first
letter of the genus, underscore, lowercase species epithet, optional
further qualifiers (spec section 4.7). -/
def matchesCapGS (run : List Char) : Bool :=
  match splitU run with
  | g :: sp :: _ =>
    (match g with
     | c :: _ => 'A' ≤ c && c ≤ 'Z'
     | [] => false) &&
    g.all isAsciiLetter && !sp.isEmpty && sp.all isAsciiLower
  | _ => false

/-- Claim C8, counterexample: the label `oryza_sativa` does not match the
claimed capitalized `Genus_species` pattern, yet `shorten_names` does not
leave it unchanged — the match is case-insensitive on the genus, exactly
as the repository's tests require. -/
theorem C8_counterexample :
    matchesCapGS "oryza_sativa".data = false ∧
    shorten_names "oryza_sativa;" = "osat;" ∧
    ("osat;" : String) ≠ "oryza_sativa;" :=
  ⟨by decide, rfl, by decide⟩

/-- Claim C8, amended: `shorten_names` replaces every label matching the
case-insensitive `genus_species` pattern with its 4-character shorten code
(`shorten "Oryza_sativa" = "osat"`), leaves non-matching labels such as
`bep` and `poaceae` unchanged, and is idempotent on every text. -/
theorem C8_shorten_names_amended :
    shorten "Oryza_sativa" = "osat" ∧
    shorten_names
      "((oryza_sativa:0.1,hordeum_vulgare:0.2)bep:0.3,panicum_hallii_fil2:0.4)poaceae:0.5;" =
      "((osat:0.1,hvul:0.2)bep:0.3,phal:0.4)poaceae:0.5;" ∧
    ∀ s : String, shorten_names (shorten_names s) = shorten_names s := by
  refine ⟨rfl, rfl, fun s => ?_⟩
  simp [shorten_names, shorten_namesL_idem]

/-- Claim C10: shortening also applies to lowercase taxon names — a
`genus_species` label with an uncapitalized first letter produces the same
4-character code as the capitalized form, both through `shorten` and
through `shorten_names`. -/
theorem C10_lowercase_shorten :
    shorten "oryza_sativa" = "osat" ∧
    shorten "Oryza_sativa" = "osat" ∧
    shorten "panicum_hallii_fil2" = "phal" ∧
    shorten "Panicum_hallii_fil2" = "phal" ∧
    shorten "hordeum_vulgare" = "hvul" ∧
    shorten_names "((oryza_sativa,hordeum_vulgare)bep,panicum_hallii_fil2)poaceae;" =
      "((osat,hvul)bep,phal)poaceae;" :=
  ⟨rfl, rfl, rfl, rfl, rfl, rfl⟩

/-- Claim C7: `select_clade` returns the minimal Newick substring rooted at
the labelled node, including its own label and length suffix, terminated
by `';'`, and behaves identically when the lengths are stripped from the
source — the result is then the length-stripped form of the same
substring. -/
theorem C7_select_clade :
    select_clade
      "((oryza_sativa:0.1,hordeum_vulgare:0.2)bep:0.3,panicum_hallii_fil2:0.4)poaceae:0.5;"
      "bep" = .ok "(oryza_sativa:0.1,hordeum_vulgare:0.2)bep:0.3;" ∧
    select_clade
      (remove_lengths
        "((oryza_sativa:0.1,hordeum_vulgare:0.2)bep:0.3,panicum_hallii_fil2:0.4)poaceae:0.5;")
      "bep" =
      .ok (remove_lengths "(oryza_sativa:0.1,hordeum_vulgare:0.2)bep:0.3;") :=
  ⟨rfl, rfl⟩

end Phylo

namespace Phylo

/-! ## Claims about the renderer -/

/-- Suffix test on character lists (used to look for a label at the end of
a rendered line). -/
def endsWithL (suf l : List Char) : Bool :=
  l.drop (l.length - suf.length) == suf

/-- Claim C4, counterexample: at width 2 the rendered output of the
reference tree contains no line carrying the root's label `root` at all —
so the root's label is not printed on its own line for every width that is
at least 1, contrary to the claim. -/
theorem C4_counterexample :
    print_graph_lines "(one:1,(two:2,three:3)anc:0.5)root" 2 =
      .ok ["┬─ one", "└─┬─ two", "  └─ three"] ∧
    (["┬─ one", "└─┬─ two", "  └─ three"].all
      (fun ln => !(endsWithL "root".data ln.data))) = true :=
  ⟨rfl, by decide⟩

/-- Claim C4, amended: the layout rules hold in the width-1 form only — at
width 1 the root's label is printed on its own line behind a single space,
every non-last child is prefixed `'├'` plus one dash and a space, every
last child `'└'` plus one dash and a space, and descendants of a last
child continue with two blanks; at widths of at least 2 the renderer
switches to an inline style that omits internal labels and draws each
internal node as `'┬'` with a dash run that shrinks with depth.  The four
reference outputs for widths 1–4 are reproduced exactly. -/
theorem C4_renderer_amended :
    print_graph "(one:1,(two:2,three:3)anc:0.5)root" 1 =
      .ok " root\n├─ one\n└─ anc\n  ├─ two\n  └─ three\n" ∧
    print_graph "(one:1,(two:2,three:3)anc:0.5)root" 2 =
      .ok "┬─ one\n└─┬─ two\n  └─ three\n" ∧
    print_graph "(one:1,(two:2,three:3)anc:0.5)root" 3 =
      .ok "┬─── one\n└─┬─ two\n  └─ three\n" ∧
    print_graph "(one:1,(two:2,three:3)anc:0.5)root" 4 =
      .ok "┬───── one\n└─┬─── two\n  └─ three\n" :=
  ⟨rfl, rfl, rfl, rfl⟩

/-- Claim C5: at width 1 the reference tree renders to exactly the five
lines ` root`, `├─ one`, `└─ anc`, `  ├─ two`, `  └─ three`, each
terminated by a newline and with nothing else. -/
theorem C5_render_width1 :
    print_graph "(one:1,(two:2,three:3)anc:0.5)root" 1 =
      .ok " root\n├─ one\n└─ anc\n  ├─ two\n  └─ three\n" := rfl

end Phylo

namespace Phylo

/-! ## Parser: well-formedness, remainder suffix, and round trip -/

/-- Validity of an optional length token. -/
def lenOkB : Option (List Char) → Bool
  | none => true
  | some tok => isValidNumber tok

mutual
/-- Parse-grade well-formedness: labels contain no structural characters
and every length token is a valid number. -/
def wfb : Node → Bool
  | .mk l len cs => l.all notStructChar && lenOkB len && wfbL cs

def wfbL : NodeList → Bool
  | .nil => true
  | .cons c cs => wfb c && wfbL cs
end

mutual
/-- Canonical well-formedness (spec section 3): additionally no whitespace
inside labels. -/
def wfc : Node → Bool
  | .mk l len cs =>
    l.all (fun c => notStructChar c && !c.isWhitespace) && lenOkB len && wfcL cs

def wfcL : NodeList → Bool
  | .nil => true
  | .cons c cs => wfc c && wfcL cs
end

/-- Characters at which a serialized subtree may legitimately stop. -/
def stopChar (c : Char) : Bool := c = ',' || c = ')' || c = ';'

/-- The remainder after a subtree is nonempty and starts with a stop
character. -/
def stopOk : List Char → Bool
  | [] => false
  | c :: _ => stopChar c

theorem stopChar_struct (c : Char) (h : stopChar c = true) :
    isStructChar c = true := by
  simp only [stopChar, Bool.or_eq_true, decide_eq_true_eq] at h
  rcases h with (rfl | rfl) | rfl <;> decide

theorem stopChar_ne_lparen (c : Char) (h : stopChar c = true) : c ≠ '(' := by
  simp only [stopChar, Bool.or_eq_true, decide_eq_true_eq] at h
  rcases h with (rfl | rfl) | rfl <;> decide

theorem stopChar_ne_colon (c : Char) (h : stopChar c = true) : c ≠ ':' := by
  simp only [stopChar, Bool.or_eq_true, decide_eq_true_eq] at h
  rcases h with (rfl | rfl) | rfl <;> decide

theorem stopChar_ne_comma_elim (c : Char) (h : stopChar c = true) (hc : c ≠ ',') :
    c = ')' ∨ c = ';' := by
  simp only [stopChar, Bool.or_eq_true, decide_eq_true_eq] at h
  tauto

theorem notStruct_ne (c : Char) (h : notStructChar c = true) :
    c ≠ '(' ∧ c ≠ ')' ∧ c ≠ ',' ∧ c ≠ ':' ∧ c ≠ ';' := by
  simp only [notStructChar, isStructChar, Bool.not_eq_true', Bool.or_eq_false_iff,
    decide_eq_false_iff_not] at h
  exact ⟨h.1.1.1.1, h.1.1.1.2, h.1.1.2, h.1.2, h.2⟩

theorem digit_notStruct (c : Char) (h : digitChar c = true) :
    notStructChar c = true := by
  simp only [digitChar, Bool.or_eq_true, decide_eq_true_eq] at h
  rcases h with ((((((((rfl | rfl) | rfl) | rfl) | rfl) | rfl) | rfl) | rfl) | rfl) | rfl <;>
    decide

theorem validNumber_all_notStruct (tok : List Char) (h : isValidNumber tok = true) :
    tok.all notStructChar = true := by
  have hbody : ∀ b : List Char,
      (b.all (fun c => digitChar c || c = '.')) = true → b.all notStructChar = true := by
    intro b hb
    rw [List.all_eq_true] at hb ⊢
    intro x hx
    rcases (by simpa using hb x hx : digitChar x = true ∨ x = '.') with hd | rfl
    · exact digit_notStruct x hd
    · decide
  cases tok with
  | nil => rfl
  | cons c r =>
    by_cases hsign : c = '-' ∨ c = '+'
    · have hr : r.all (fun c => digitChar c || c = '.') = true := by
        simp only [isValidNumber, if_pos hsign, Bool.and_eq_true] at h
        exact h.1.2
      rw [List.all_cons, Bool.and_eq_true]
      exact ⟨by rcases hsign with rfl | rfl <;> decide, hbody r hr⟩
    · have hall : (c :: r).all (fun c => digitChar c || c = '.') = true := by
        simp only [isValidNumber, if_neg hsign, Bool.and_eq_true] at h
        exact h.1.2
      exact hbody _ hall

theorem takeWhile_append_all (p : Char → Bool) (xs ys : List Char)
    (h : xs.all p = true) : (xs ++ ys).takeWhile p = xs ++ ys.takeWhile p := by
  induction xs with
  | nil => simp
  | cons a l ih =>
    rw [List.all_cons, Bool.and_eq_true] at h
    simp only [List.cons_append, List.takeWhile_cons, h.1, if_true, ih h.2]

theorem dropWhile_append_all (p : Char → Bool) (xs ys : List Char)
    (h : xs.all p = true) : (xs ++ ys).dropWhile p = ys.dropWhile p := by
  induction xs with
  | nil => simp
  | cons a l ih =>
    rw [List.all_cons, Bool.and_eq_true] at h
    simp only [List.cons_append, List.dropWhile_cons, h.1, if_true, ih h.2]

/-- After a label, the serialized length-plus-remainder block starts with a
character that ends the label scan and is not an opening parenthesis. -/
theorem serLenRest_head_fails (len : Option (List Char)) (rest : List Char)
    (hstop : stopOk rest = true) :
    ∃ c R, serLen len ++ rest = c :: R ∧ notStructChar c = false ∧ c ≠ '(' := by
  cases len with
  | some tok => exact ⟨':', tok ++ rest, rfl, by decide, by decide⟩
  | none =>
    cases rest with
    | nil => simp [stopOk] at hstop
    | cons r0 R =>
      refine ⟨r0, R, by simp [serLen], ?_, stopChar_ne_lparen r0 hstop⟩
      simp only [notStructChar, Bool.not_eq_true']
      simp [stopChar_struct r0 hstop]

/-- Scanning a well-formed label before a length/stop block returns the
label and the block. -/
theorem label_scan_inv (l : List Char) (len : Option (List Char)) (rest : List Char)
    (hl : l.all notStructChar = true) (hstop : stopOk rest = true) :
    (l ++ (serLen len ++ rest)).takeWhile notStructChar = l ∧
    (l ++ (serLen len ++ rest)).dropWhile notStructChar = serLen len ++ rest := by
  obtain ⟨c, R, hCR, hfail, hnp⟩ := serLenRest_head_fails len rest hstop
  rw [takeWhile_append_all _ _ _ hl, dropWhile_append_all _ _ _ hl, hCR,
    List.takeWhile_cons, List.dropWhile_cons, hfail]
  simp

/-- The optional length parser inverts the length serializer. -/
theorem parseLengthTok_ser (len : Option (List Char)) (rest : List Char)
    (hlen : lenOkB len = true) (hstop : stopOk rest = true) :
    parseLengthTok (serLen len ++ rest) = .ok (len, rest) := by
  cases len with
  | none =>
    cases rest with
    | nil => simp [stopOk] at hstop
    | cons r0 R =>
      have hne : ¬ r0 = ':' := stopChar_ne_colon r0 hstop
      simp [serLen, parseLengthTok, hne]
  | some tok =>
    have htok : tok.all notStructChar = true := validNumber_all_notStruct tok hlen
    obtain ⟨c, R, hCR, hfail⟩ : ∃ c R, rest = c :: R ∧ notStructChar c = false := by
      cases rest with
      | nil => simp [stopOk] at hstop
      | cons r0 R =>
        refine ⟨r0, R, rfl, ?_⟩
        simp only [notStructChar, Bool.not_eq_true']
        simp [stopChar_struct r0 hstop]
    simp only [serLen, List.cons_append, parseLengthTok, if_pos rfl]
    rw [takeWhile_append_all _ _ _ htok, dropWhile_append_all _ _ _ htok, hCR,
      List.takeWhile_cons, List.dropWhile_cons, hfail]
    have hv : isValidNumber tok = true := hlen
    simp [hv]

end Phylo

namespace Phylo

theorem parseLengthTok_suffix (cs rs : List Char) (len : Option (List Char))
    (h : parseLengthTok cs = .ok (len, rs)) : rs <:+ cs := by
  cases cs with
  | nil =>
    simp only [parseLengthTok, Except.ok.injEq, Prod.mk.injEq] at h
    rw [h.2.symm]
  | cons c r =>
    by_cases hc : c = ':'
    · simp only [parseLengthTok, if_pos hc] at h
      by_cases hv : isValidNumber (r.takeWhile notStructChar) = true
      · rw [if_pos hv] at h
        simp only [Except.ok.injEq, Prod.mk.injEq] at h
        rw [h.2.symm]
        exact (List.dropWhile_suffix _).trans (List.suffix_cons c r)
      · rw [if_neg hv] at h
        simp at h
    · simp only [parseLengthTok, if_neg hc, Except.ok.injEq, Prod.mk.injEq] at h
      rw [h.2.symm]

theorem parse_suffix : ∀ fuel,
    (∀ cs t rs, parseSubtree fuel cs = .ok (t, rs) → rs <:+ cs) ∧
    (∀ cs ns rs, parseSiblings fuel cs = .ok (ns, rs) → rs <:+ cs) := by
  intro fuel
  induction fuel with
  | zero =>
    constructor <;> intro cs a rs h <;>
      simp [parseSubtree, parseSiblings] at h
  | succ f ih =>
    constructor
    · intro cs t rs h
      by_cases hh : cs.head? = some '('
      · simp only [parseSubtree, if_pos hh] at h
        rcases hp1 : parseSubtree f cs.tail with e | ⟨c0, r1⟩ <;> simp only [hp1] at h
        · simp at h
        · rcases hp2 : parseSiblings f r1 with e | ⟨sibs, r2⟩ <;> simp only [hp2] at h
          · simp at h
          · by_cases hh2 : r2.head? = some ')'
            · rw [if_pos hh2] at h
              rcases hp3 : parseLengthTok (r2.tail.dropWhile notStructChar)
                with e | ⟨len, r3⟩ <;> simp only [hp3] at h
              · simp at h
              · simp only [Except.ok.injEq, Prod.mk.injEq] at h
                rw [h.2.symm]
                have s1 : r3 <:+ r2.tail.dropWhile notStructChar :=
                  parseLengthTok_suffix _ _ _ hp3
                have s2 : r2.tail.dropWhile notStructChar <:+ r2.tail :=
                  List.dropWhile_suffix _
                have s3 : r2.tail <:+ r2 := List.tail_suffix r2
                have s4 : r2 <:+ r1 := ih.2 r1 sibs r2 hp2
                have s5 : r1 <:+ cs.tail := ih.1 cs.tail c0 r1 hp1
                have s6 : cs.tail <:+ cs := List.tail_suffix cs
                exact s1.trans (s2.trans (s3.trans (s4.trans (s5.trans s6))))
            · rw [if_neg hh2] at h
              simp at h
      · simp only [parseSubtree, if_neg hh] at h
        rcases hp3 : parseLengthTok (cs.dropWhile notStructChar)
          with e | ⟨len, r1⟩ <;> simp only [hp3] at h
        · simp at h
        · simp only [Except.ok.injEq, Prod.mk.injEq] at h
          rw [h.2.symm]
          exact (parseLengthTok_suffix _ _ _ hp3).trans (List.dropWhile_suffix _)
    · intro cs ns rs h
      by_cases hh : cs.head? = some ','
      · simp only [parseSiblings, if_pos hh] at h
        rcases hp1 : parseSubtree f cs.tail with e | ⟨n, r1⟩ <;> simp only [hp1] at h
        · simp at h
        · rcases hp2 : parseSiblings f r1 with e | ⟨ns2, r2⟩ <;> simp only [hp2] at h
          · simp at h
          · simp only [Except.ok.injEq, Prod.mk.injEq] at h
            rw [h.2.symm]
            have s4 : r2 <:+ r1 := ih.2 r1 ns2 r2 hp2
            have s5 : r1 <:+ cs.tail := ih.1 cs.tail n r1 hp1
            exact s4.trans (s5.trans (List.tail_suffix cs))
      · simp only [parseSiblings, if_neg hh, Except.ok.injEq, Prod.mk.injEq] at h
        rw [h.2.symm]

/-- A successful `parse_newickL` forces the input to end in `';'`. -/
theorem parse_newickL_getLast (cs : List Char) (t : Node)
    (h : parse_newickL cs = .ok t) : cs.getLast? = some ';' := by
  unfold parse_newickL at h
  rcases hp : parseSubtree (cs.length + 1) cs with e | ⟨t', rs⟩ <;> simp only [hp] at h
  · simp at h
  · cases rs with
    | nil => simp at h
    | cons c rest =>
      by_cases hc : c = ';'
      · by_cases hr : rest = []
        · subst hc hr
          have hsuf : [';'] <:+ cs := (parse_suffix _).1 cs t' [';'] hp
          obtain ⟨pre, rfl⟩ := hsuf
          exact List.getLast?_concat pre
        · subst hc
          simp [hr] at h
      · simp [hc] at h

end Phylo

namespace Phylo

/-- Claim C3: `parse_newick` accepts only input terminated by `';'` — every
successful parse forces the final character of the input to be `';'` (so
any input lacking a terminating `';'` fails), and unbalanced parentheses,
a comma outside any parentheses, an invalid length token and trailing
characters after the final `';'` each fail with a ParseError. -/
theorem C3_parser_termination :
    (∀ (s : String) (t : Node), parse_newick s = .ok t → s.data.getLast? = some ';') ∧
    parse_newick "((A,B);" = .error PErr.unbalanced ∧
    parse_newick "A,B;" = .error PErr.expectedEnd ∧
    parse_newick "(A:1x,B);" = .error PErr.invalidLength ∧
    parse_newick "(A,B);x" = .error PErr.trailing :=
  ⟨fun s t h => parse_newickL_getLast s.data t h, rfl, rfl, rfl, rfl⟩

/-- The success half of claim C3, instantiated at the concrete input
`(A,B);`. -/
theorem C3_parser_termination_witness :
    ("(A,B);" : String).data.getLast? = some ';' :=
  C3_parser_termination.1 "(A,B);"
    (Node.mk [] none
      (.cons (Node.mk ['A'] none .nil) (.cons (Node.mk ['B'] none .nil) .nil)))
    rfl

end Phylo

namespace Phylo

/-! ## Round trip: the parser inverts the serializer -/

/-- The inversion statement for one subtree: parsing its serialization
followed by any legitimate remainder consumes exactly the serialization. -/
def SubInv (t : Node) : Prop :=
  ∀ rest fuel, wfb t = true → stopOk rest = true →
    (serializeNode t ++ rest).length < fuel →
    parseSubtree fuel (serializeNode t ++ rest) = .ok (t, rest)

theorem mem_toList_head (c : Node) (cs : NodeList) :
    c ∈ (NodeList.cons c cs).toList := by
  simp [NodeList.toList]

theorem mem_toList_tail (c d : Node) (cs : NodeList) (h : d ∈ cs.toList) :
    d ∈ (NodeList.cons c cs).toList := by
  simp only [NodeList.toList, List.mem_cons]
  exact Or.inr h

theorem stopOk_of_head_rparen (rest : List Char) (h : rest.head? = some ')') :
    stopOk rest = true := by
  cases rest with
  | nil => simp at h
  | cons r0 R =>
    simp only [List.head?_cons, Option.some.injEq] at h
    subst h
    rfl

theorem stopOk_serSib (cs : NodeList) (rest : List Char)
    (h : rest.head? = some ')') :
    stopOk (serializeSiblings cs ++ rest) = true := by
  cases cs with
  | nil =>
    simp only [serializeSiblings, List.nil_append]
    exact stopOk_of_head_rparen rest h
  | cons c cs' =>
    simp only [serializeSiblings, List.cons_append]
    rfl

theorem sib_inv (ts : NodeList) :
    (∀ c ∈ ts.toList, SubInv c) →
    ∀ rest fuel, wfbL ts = true → rest.head? = some ')' →
    (serializeSiblings ts ++ rest).length < fuel →
    parseSiblings fuel (serializeSiblings ts ++ rest) = .ok (ts, rest) := by
  induction ts using NodeList.listInd with
  | hnil =>
    intro _ rest fuel _ hr hlt
    cases fuel with
    | zero => omega
    | succ f =>
      simp only [serializeSiblings, List.nil_append] at hlt ⊢
      simp only [parseSiblings]
      rw [if_neg (by simp [hr])]
  | hcons c cs ih =>
    intro hmem rest fuel hwf hr hlt
    cases fuel with
    | zero => omega
    | succ f =>
      have hin : serializeSiblings (.cons c cs) ++ rest
          = ',' :: (serializeNode c ++ (serializeSiblings cs ++ rest)) := by
        simp [serializeSiblings, List.append_assoc]
      rw [hin] at hlt ⊢
      have hwf2 : wfb c = true ∧ wfbL cs = true := by
        simpa [wfbL, Bool.and_eq_true] using hwf
      have hstop2 : stopOk (serializeSiblings cs ++ rest) = true :=
        stopOk_serSib cs rest hr
      have hlt2 : (serializeNode c ++ (serializeSiblings cs ++ rest)).length < f := by
        simp only [List.length_cons] at hlt
        omega
      have hlt3 : (serializeSiblings cs ++ rest).length < f := by
        simp only [List.length_append] at hlt2 ⊢
        omega
      have e1 := hmem c (mem_toList_head c cs)
        (serializeSiblings cs ++ rest) f hwf2.1 hstop2 hlt2
      have e2 := ih (fun d hd => hmem d (mem_toList_tail c d cs hd))
        rest f hwf2.2 hr hlt3
      simp only [parseSiblings, List.head?_cons, Option.some.injEq, if_pos rfl,
        List.tail_cons, e1, e2]
      simp

theorem sub_inv : ∀ t, SubInv t := by
  refine Node.nodeInd ?_
  intro l len cs ihmem rest fuel hwf hstop hlt
  have hw : l.all notStructChar = true ∧ lenOkB len = true ∧ wfbL cs = true := by
    have hwf' := hwf
    simp only [wfb, Bool.and_eq_true] at hwf'
    exact ⟨hwf'.1.1, hwf'.1.2, hwf'.2⟩
  cases fuel with
  | zero => omega
  | succ f =>
    cases cs with
    | nil =>
      have hser : serializeNode (Node.mk l len .nil) ++ rest
          = l ++ (serLen len ++ rest) := by
        simp [serializeNode, List.append_assoc]
      rw [hser] at hlt ⊢
      have hne : ¬ ((l ++ (serLen len ++ rest)).head? = some '(') := by
        cases l with
        | nil =>
          obtain ⟨c, R, hCR, _, hnp⟩ := serLenRest_head_fails len rest hstop
          simp only [List.nil_append, hCR, List.head?_cons, Option.some.injEq]
          exact fun he => hnp he
        | cons a l' =>
          simp only [List.cons_append, List.head?_cons, Option.some.injEq]
          intro he
          have ha : notStructChar a = true := by
            have := hw.1
            rw [List.all_cons, Bool.and_eq_true] at this
            exact this.1
          exact (notStruct_ne a ha).1 he
      obtain ⟨htake, hdrop⟩ := label_scan_inv l len rest hw.1 hstop
      simp only [parseSubtree]
      rw [if_neg hne]
      simp only [htake, hdrop, parseLengthTok_ser len rest hw.2.1 hstop]
    | cons c0 cs' =>
      have hser : serializeNode (Node.mk l len (.cons c0 cs')) ++ rest =
          '(' :: (serializeNode c0 ++
            (serializeSiblings cs' ++ (')' :: (l ++ (serLen len ++ rest))))) := by
        simp [serializeNode, List.append_assoc]
      rw [hser] at hlt ⊢
      have hwf2 : wfb c0 = true ∧ wfbL cs' = true := by
        have h2 := hw.2.2
        simpa [wfbL, Bool.and_eq_true] using h2
      have hstop1 : stopOk (serializeSiblings cs' ++
          (')' :: (l ++ (serLen len ++ rest)))) = true :=
        stopOk_serSib cs' _ (by simp)
      have hlt1 : (serializeNode c0 ++ (serializeSiblings cs' ++
          (')' :: (l ++ (serLen len ++ rest))))).length < f := by
        simp only [List.length_cons] at hlt
        omega
      have hlt2 : (serializeSiblings cs' ++
          (')' :: (l ++ (serLen len ++ rest)))).length < f := by
        simp only [List.length_append] at hlt1 ⊢
        omega
      have e1 := ihmem c0 (mem_toList_head c0 cs')
        (serializeSiblings cs' ++ (')' :: (l ++ (serLen len ++ rest)))) f
        hwf2.1 hstop1 hlt1
      have e2 := sib_inv cs' (fun d hd => ihmem d (mem_toList_tail c0 d cs' hd))
        (')' :: (l ++ (serLen len ++ rest))) f hwf2.2 (by simp) hlt2
      obtain ⟨htake, hdrop⟩ := label_scan_inv l len rest hw.1 hstop
      simp only [parseSubtree, List.head?_cons, Option.some.injEq, if_pos rfl,
        List.tail_cons, e1, e2, htake, hdrop,
        parseLengthTok_ser len rest hw.2.1 hstop]
      simp

/-- The parser inverts the serializer on every parse-grade well-formed
tree. -/
theorem parse_newickize (t : Node) (h : wfb t = true) :
    parse_newickL (newickizeL t) = .ok t := by
  unfold parse_newickL newickizeL
  have hs := sub_inv t [';'] (serializeNode t ++ [';']).length.succ h (by decide)
    (Nat.lt_succ_self _)
  simp only [List.length_append, List.length_cons, List.length_nil] at hs ⊢
  simp only [Nat.succ_eq_add_one] at hs
  rw [hs]
  rfl

end Phylo

namespace Phylo

theorem wfcL_imp (cs : NodeList)
    (h : ∀ c ∈ cs.toList, wfc c = true → wfb c = true) :
    wfcL cs = true → wfbL cs = true := by
  induction cs using NodeList.listInd with
  | hnil => intro _; rfl
  | hcons c cs' ih =>
    intro hc
    simp only [wfcL, Bool.and_eq_true] at hc
    simp only [wfbL, Bool.and_eq_true]
    exact ⟨h c (mem_toList_head c cs') hc.1,
      ih (fun d hd => h d (mem_toList_tail c d cs' hd)) hc.2⟩

/-- Canonical trees (whitespace-free labels) are parse-grade well
formed. -/
theorem wfc_imp_wfb : ∀ t, wfc t = true → wfb t = true := by
  refine Node.nodeInd ?_
  intro l len cs ihmem h
  simp only [wfc, Bool.and_eq_true] at h
  simp only [wfb, Bool.and_eq_true]
  refine ⟨⟨?_, h.1.2⟩, wfcL_imp cs ihmem h.2⟩
  rw [List.all_eq_true] at h ⊢
  intro x hx
  have := h.1.1 x hx
  rw [Bool.and_eq_true] at this
  exact this.1

/-- A canonically formatted Newick string: the byte-exact serialization of
a well-formed tree — whitespace-free labels, length tokens kept as their
original valid numeric text (spec sections 4.3 and 8). -/
def CanonicalNewick (s : String) : Prop :=
  ∃ t, wfc t = true ∧ newickize t = s

/-- Claim C1: for every canonically formatted Newick string `s`,
`newickize (parse_newick s)` is byte-for-byte equal to `s`. -/
theorem C1_roundtrip (s : String) (h : CanonicalNewick s) :
    (parse_newick s).map newickize = .ok s := by
  obtain ⟨t, hw, rfl⟩ := h
  have hp : parse_newickL (newickizeL t) = .ok t :=
    parse_newickize t (wfc_imp_wfb t hw)
  show (parse_newickL (newickize t).data).map newickize = .ok (newickize t)
  rw [show (newickize t).data = newickizeL t from rfl, hp]
  rfl

/-- Claim C1 instantiated at the repository's reference tree. -/
theorem C1_roundtrip_witness :
    (parse_newick
      "((oryza_sativa:0.1,hordeum_vulgare:0.2)bep:0.3,panicum_hallii_fil2:0.4)poaceae:0.5;").map
      newickize =
      .ok "((oryza_sativa:0.1,hordeum_vulgare:0.2)bep:0.3,panicum_hallii_fil2:0.4)poaceae:0.5;" :=
  C1_roundtrip _ ⟨sampleTree, by rfl, by rfl⟩

end Phylo

namespace Phylo

/-! ## Parser output is well formed -/

theorem all_takeWhile (p : Char → Bool) (l : List Char) :
    (l.takeWhile p).all p = true := by
  induction l with
  | nil => rfl
  | cons a r ih =>
    by_cases h : p a = true
    · simp [List.takeWhile_cons, h, ih]
    · simp [List.takeWhile_cons, h]

theorem parseLengthTok_lenOk (cs rs : List Char) (len : Option (List Char))
    (h : parseLengthTok cs = .ok (len, rs)) : lenOkB len = true := by
  cases cs with
  | nil =>
    simp only [parseLengthTok, Except.ok.injEq, Prod.mk.injEq] at h
    rw [← h.1]
    rfl
  | cons c r =>
    by_cases hc : c = ':'
    · simp only [parseLengthTok, if_pos hc] at h
      by_cases hv : isValidNumber (r.takeWhile notStructChar) = true
      · rw [if_pos hv] at h
        simp only [Except.ok.injEq, Prod.mk.injEq] at h
        rw [← h.1]
        exact hv
      · rw [if_neg hv] at h
        simp at h
    · simp only [parseLengthTok, if_neg hc, Except.ok.injEq, Prod.mk.injEq] at h
      rw [← h.1]
      rfl

theorem parse_wf : ∀ fuel,
    (∀ cs t rs, parseSubtree fuel cs = .ok (t, rs) → wfb t = true) ∧
    (∀ cs ns rs, parseSiblings fuel cs = .ok (ns, rs) → wfbL ns = true) := by
  intro fuel
  induction fuel with
  | zero =>
    constructor <;> intro cs a rs h <;>
      simp [parseSubtree, parseSiblings] at h
  | succ f ih =>
    constructor
    · intro cs t rs h
      by_cases hh : cs.head? = some '('
      · simp only [parseSubtree, if_pos hh] at h
        rcases hp1 : parseSubtree f cs.tail with e | ⟨c0, r1⟩ <;> simp only [hp1] at h
        · simp at h
        · rcases hp2 : parseSiblings f r1 with e | ⟨sibs, r2⟩ <;> simp only [hp2] at h
          · simp at h
          · by_cases hh2 : r2.head? = some ')'
            · rw [if_pos hh2] at h
              rcases hp3 : parseLengthTok (r2.tail.dropWhile notStructChar)
                with e | ⟨len, r3⟩ <;> simp only [hp3] at h
              · simp at h
              · simp only [Except.ok.injEq, Prod.mk.injEq] at h
                rw [← h.1]
                simp only [wfb, wfbL, Bool.and_eq_true]
                exact ⟨⟨all_takeWhile _ _, parseLengthTok_lenOk _ _ _ hp3⟩,
                  ih.1 cs.tail c0 r1 hp1, ih.2 r1 sibs r2 hp2⟩
            · rw [if_neg hh2] at h
              simp at h
      · simp only [parseSubtree, if_neg hh] at h
        rcases hp3 : parseLengthTok (cs.dropWhile notStructChar)
          with e | ⟨len, r1⟩ <;> simp only [hp3] at h
        · simp at h
        · simp only [Except.ok.injEq, Prod.mk.injEq] at h
          rw [← h.1]
          simp only [wfb, wfbL, Bool.and_eq_true]
          exact ⟨⟨all_takeWhile _ _, parseLengthTok_lenOk _ _ _ hp3⟩, by trivial⟩
    · intro cs ns rs h
      by_cases hh : cs.head? = some ','
      · simp only [parseSiblings, if_pos hh] at h
        rcases hp1 : parseSubtree f cs.tail with e | ⟨n, r1⟩ <;> simp only [hp1] at h
        · simp at h
        · rcases hp2 : parseSiblings f r1 with e | ⟨ns2, r2⟩ <;> simp only [hp2] at h
          · simp at h
          · simp only [Except.ok.injEq, Prod.mk.injEq] at h
            rw [← h.1]
            simp only [wfbL, Bool.and_eq_true]
            exact ⟨ih.1 cs.tail n r1 hp1, ih.2 r1 ns2 r2 hp2⟩
      · simp only [parseSiblings, if_neg hh, Except.ok.injEq, Prod.mk.injEq] at h
        rw [← h.1]
        rfl

theorem parse_newickL_wf (cs : List Char) (t : Node)
    (h : parse_newickL cs = .ok t) : wfb t = true := by
  unfold parse_newickL at h
  rcases hp : parseSubtree (cs.length + 1) cs with e | ⟨t', rs⟩ <;> simp only [hp] at h
  · simp at h
  · cases rs with
    | nil => simp at h
    | cons c rest =>
      by_cases hc : c = ';'
      · by_cases hr : rest = []
        · have ht : t' = t := by simp [hc, hr] at h; exact h
          exact ht ▸ (parse_wf _).1 cs t' (c :: rest) hp
        · simp [hc, hr] at h
      · simp [hc] at h

end Phylo

namespace Phylo

/-! ## Pruning: tip labels of the pruned tree -/

/-- Order-preserving subsequence test (the requested tips are given in the
tree's tip order). -/
def isSubseq : List (List Char) → List (List Char) → Bool
  | [], _ => true
  | _ :: _, [] => false
  | t :: ts, a :: l => if t = a then isSubseq ts l else isSubseq (t :: ts) l

theorem isSubseq_nil (l : List (List Char)) : isSubseq [] l = true := by
  cases l <;> rfl

theorem isSubseq_mem (l : List (List Char)) :
    ∀ T, isSubseq T l = true → ∀ x ∈ T, x ∈ l := by
  induction l with
  | nil =>
    intro T h x hx
    cases T with
    | nil => simp at hx
    | cons t ts => simp [isSubseq] at h
  | cons a l' ih =>
    intro T h x hx
    cases T with
    | nil => simp at hx
    | cons t ts =>
      by_cases hta : t = a
      · subst hta
        simp only [isSubseq, if_pos rfl] at h
        rcases List.mem_cons.mp hx with rfl | hx
        · exact List.mem_cons_self _ _
        · exact List.mem_cons_of_mem _ (ih ts h x hx)
      · simp only [isSubseq, if_neg hta] at h
        exact List.mem_cons_of_mem _ (ih (t :: ts) h x hx)

theorem filter_isSubseq (l : List (List Char)) :
    ∀ T, l.Nodup → isSubseq T l = true →
      l.filter (fun x => decide (x ∈ T)) = T := by
  induction l with
  | nil =>
    intro T _ h
    cases T with
    | nil => rfl
    | cons t ts => simp [isSubseq] at h
  | cons a l' ih =>
    intro T hnd h
    rw [List.nodup_cons] at hnd
    cases T with
    | nil =>
      simp only [List.filter_cons]
      rw [if_neg (by simp)]
      have : l'.filter (fun x => decide (x ∈ ([] : List (List Char)))) = [] :=
        ih [] hnd.2 (isSubseq_nil l')
      simp [this]
    | cons t ts =>
      by_cases hta : t = a
      · subst hta
        simp only [isSubseq, if_pos rfl] at h
        simp only [List.filter_cons]
        rw [if_pos (by simp)]
        have hcong : l'.filter (fun x => decide (x ∈ t :: ts)) =
            l'.filter (fun x => decide (x ∈ ts)) := by
          apply List.filter_congr
          intro x hx
          have hxt : x ≠ t := fun he => hnd.1 (he ▸ hx)
          simp [List.mem_cons, hxt]
        rw [hcong, ih ts hnd.2 h]
      · simp only [isSubseq, if_neg hta] at h
        simp only [List.filter_cons]
        have hasub : ∀ x ∈ t :: ts, x ∈ l' := isSubseq_mem l' (t :: ts) h
        have hna : a ∉ t :: ts := by
          intro hin
          exact hnd.1 (hasub a hin)
        rw [if_neg (by simp [hna])]
        exact ih (t :: ts) hnd.2 h

/-- Tips of an optional (possibly pruned-away) subtree. -/
def optTips : Option Node → List (List Char)
  | none => []
  | some t => tipsN t

theorem tips_pruneL (tips : List (List Char)) (cs : NodeList)
    (h : ∀ c ∈ cs.toList,
      optTips (pruneN tips c) = (tipsN c).filter (fun x => decide (x ∈ tips))) :
    tipsL (pruneL tips cs) = (tipsL cs).filter (fun x => decide (x ∈ tips)) := by
  induction cs using NodeList.listInd with
  | hnil => rfl
  | hcons c cs' ih =>
    have hc := h c (mem_toList_head c cs')
    have ihr := ih (fun d hd => h d (mem_toList_tail c d cs' hd))
    rcases hp : pruneN tips c with _ | k <;> rw [hp] at hc
    · simp only [pruneL, hp]
      rw [ihr]
      simp only [tipsL, List.filter_append]
      rw [← hc]
      simp [optTips]
    · simp only [pruneL, hp]
      simp only [tipsL, List.filter_append]
      rw [← hc, ihr]
      simp [optTips]

theorem tips_pruneN (tips : List (List Char)) : ∀ t,
    optTips (pruneN tips t) = (tipsN t).filter (fun x => decide (x ∈ tips)) := by
  refine Node.nodeInd ?_
  intro l len cs ihmem
  cases cs with
  | nil =>
    by_cases hl : l ∈ tips
    · simp [pruneN, hl, optTips, tipsN]
    · simp [pruneN, hl, optTips, tipsN]
  | cons c0 cs' =>
    have hlist := tips_pruneL tips (.cons c0 cs') ihmem
    have htn : tipsN (Node.mk l len (.cons c0 cs')) = tipsL (.cons c0 cs') := rfl
    rw [htn, ← hlist]
    rcases hp : pruneL tips (.cons c0 cs') with _ | ⟨k1, _ | ⟨k2, ks⟩⟩ <;>
      simp only [pruneN, hp, optTips]
    · rfl
    · simp [tipsL, tipsN]
    · rfl

end Phylo

namespace Phylo

/-! ## Pruning preserves well-formedness -/

theorem wfbL_of_forall (cs : NodeList)
    (h : ∀ c ∈ cs.toList, wfb c = true) : wfbL cs = true := by
  induction cs using NodeList.listInd with
  | hnil => rfl
  | hcons c cs' ih =>
    simp only [wfbL, Bool.and_eq_true]
    exact ⟨h c (mem_toList_head c cs'),
      ih (fun d hd => h d (mem_toList_tail c d cs' hd))⟩

theorem forall_of_wfbL (cs : NodeList) (h : wfbL cs = true) :
    ∀ c ∈ cs.toList, wfb c = true := by
  induction cs using NodeList.listInd with
  | hnil => intro c hc; simp [NodeList.toList] at hc
  | hcons c cs' ih =>
    simp only [wfbL, Bool.and_eq_true] at h
    intro d hd
    rcases List.mem_cons.mp (by simpa [NodeList.toList] using hd) with rfl | hd
    · exact h.1
    · exact ih h.2 d hd

theorem wf_pruneL (tips : List (List Char)) (cs : NodeList)
    (hmem : ∀ c ∈ cs.toList, ∀ t', wfb c = true →
      pruneN tips c = some t' → wfb t' = true)
    (hwf : ∀ c ∈ cs.toList, wfb c = true) :
    ∀ c' ∈ (pruneL tips cs).toList, wfb c' = true := by
  induction cs using NodeList.listInd with
  | hnil => intro c hc; simp [pruneL, NodeList.toList] at hc
  | hcons c cs' ih =>
    intro c' hc'
    have ihr := ih (fun d hd => hmem d (mem_toList_tail c d cs' hd))
      (fun d hd => hwf d (mem_toList_tail c d cs' hd))
    rcases hp : pruneN tips c with _ | k
    · simp only [pruneL, hp] at hc'
      exact ihr c' hc'
    · simp only [pruneL, hp] at hc'
      rcases List.mem_cons.mp (by simpa [NodeList.toList] using hc') with rfl | hc'
      · exact hmem c (mem_toList_head c cs') c'
          (hwf c (mem_toList_head c cs')) hp
      · exact ihr c' hc'

theorem wf_pruneN (tips : List (List Char)) : ∀ t,
    ∀ t', wfb t = true → pruneN tips t = some t' → wfb t' = true := by
  refine Node.nodeInd ?_
  intro l len cs ihmem t' hwf hp
  cases cs with
  | nil =>
    by_cases hl : l ∈ tips
    · simp only [pruneN, if_pos hl, Option.some.injEq] at hp
      exact hp ▸ hwf
    · simp [pruneN, hl] at hp
  | cons c0 cs' =>
    have hw : l.all notStructChar = true ∧ lenOkB len = true ∧
        wfbL (NodeList.cons c0 cs') = true := by
      have hwf' := hwf
      simp only [wfb, Bool.and_eq_true] at hwf'
      exact ⟨hwf'.1.1, hwf'.1.2, hwf'.2⟩
    have hall := wf_pruneL tips (.cons c0 cs') ihmem (forall_of_wfbL _ hw.2.2)
    rcases hpl : pruneL tips (.cons c0 cs') with _ | ⟨k1, _ | ⟨k2, ks⟩⟩ <;>
      simp only [pruneN, hpl, Option.some.injEq] at hp
    · exact absurd hp (by simp)
    · have hk : wfb k1 = true := by
        apply hall k1
        rw [hpl]
        exact mem_toList_head k1 .nil
      exact hp ▸ hk
    · rw [← hp]
      simp only [wfb, Bool.and_eq_true]
      refine ⟨⟨hw.1, hw.2.1⟩, wfbL_of_forall _ ?_⟩
      intro d hd
      apply hall d
      rw [hpl]
      exact hd

end Phylo

namespace Phylo

/-! ## Claim C2: the pruning invariant -/

/-- Claim C2, counterexample: with duplicated tip labels the pruned tree
keeps both copies, so `extract_tip_names (select_tips s T)` need not equal
`T` even though `T` is a non-empty subset of the tip labels given in tip
order. -/
theorem C2_counterexample :
    extract_tip_names "(A,A);" = .ok ["A", "A"] ∧
    Except.bind (select_tips "(A,A);" ["A"]) extract_tip_names = .ok ["A", "A"] ∧
    (["A", "A"] : List String) ≠ ["A"] :=
  ⟨rfl, rfl, by decide⟩

/-- Claim C2, amended: for every Newick text with pairwise-distinct
non-empty tip labels and every non-empty subsequence `T` of its tip labels
(in tip order), `extract_tip_names (select_tips s T) = T`. -/
theorem C2_pruning_amended (s : String) (t : Node) (T : List String)
    (hp : parse_newick s = .ok t)
    (hnd : (tipsN t).Nodup)
    (hne : ∀ lbl ∈ tipsN t, lbl ≠ [])
    (hTne : T ≠ [])
    (hsub : isSubseq (T.map (fun x => x.data)) (tipsN t) = true) :
    Except.bind (select_tips s T) extract_tip_names = .ok T := by
  have hwf : wfb t = true := parse_newickL_wf s.data t hp
  have htips := tips_pruneN (T.map (fun x => x.data)) t
  have hfeq : (tipsN t).filter (fun x => decide (x ∈ T.map (fun x => x.data))) =
      T.map (fun x => x.data) := filter_isSubseq (tipsN t) _ hnd hsub
  have hTd_ne : T.map (fun x => x.data) ≠ [] := by
    cases T with
    | nil => exact absurd rfl hTne
    | cons a as => simp
  obtain ⟨t', hprune⟩ : ∃ t', pruneN (T.map (fun x => x.data)) t = some t' := by
    rcases hpr : pruneN (T.map (fun x => x.data)) t with _ | t'
    · rw [hpr, hfeq] at htips
      exact absurd htips.symm hTd_ne
    · exact ⟨t', hpr⟩
  have htips' : tipsN t' = T.map (fun x => x.data) := by
    rw [hprune, hfeq] at htips
    exact htips
  have hwf' : wfb t' = true := wf_pruneN _ t t' hwf hprune
  have hsel : select_tips s T = .ok (String.mk (newickizeL t')) := by
    unfold select_tips
    simp only [show parse_newickL s.data = Except.ok t from hp, hprune]
  have hext : extract_tip_names (String.mk (newickizeL t')) =
      .ok (((tipsN t').filter (fun l => !l.isEmpty)).map String.mk) := by
    unfold extract_tip_names
    simp only [show (String.mk (newickizeL t')).data = newickizeL t' from rfl,
      parse_newickize t' hwf']
  rw [hsel]
  show extract_tip_names (String.mk (newickizeL t')) = .ok T
  rw [hext, htips']
  have hfil : (T.map (fun x => x.data)).filter (fun l => !l.isEmpty) =
      T.map (fun x => x.data) := by
    rw [List.filter_eq_self]
    intro a ha
    have hmem : a ∈ tipsN t := isSubseq_mem (tipsN t) _ hsub a ha
    have hane := hne a hmem
    simp [hane]
  rw [hfil]
  have hmapmap : (T.map (fun x => x.data)).map String.mk = T := by
    rw [List.map_map]
    conv_rhs => rw [show T = T.map id from (List.map_id T).symm]
    apply List.map_congr_left
    intro a _
    rfl
  rw [hmapmap]

def leafT (s : String) : Node := Node.mk s.data none .nil

def innT (cs : NodeList) : Node := Node.mk [] none cs

/-- The test tree of `test_select_tips`. -/
def tree8 : Node :=
  innT (.cons
    (innT (.cons
      (innT (.cons
        (innT (.cons (leafT "A") (.cons (leafT "B") .nil)))
        (.cons (innT (.cons (leafT "C") (.cons (leafT "D") .nil))) .nil)))
      (.cons
        (innT (.cons (leafT "E")
          (.cons (innT (.cons (leafT "F") (.cons (leafT "G") .nil))) .nil)))
        .nil)))
    (.cons (leafT "H") .nil))

/-- Claim C2 (amended) instantiated at the repository's test tree and tip
set. -/
theorem C2_pruning_amended_witness :
    Except.bind (select_tips "((((A,B),(C,D)),(E,(F,G))),H);" ["A", "C", "E"])
      extract_tip_names = .ok ["A", "C", "E"] :=
  C2_pruning_amended "((((A,B),(C,D)),(E,(F,G))),H);" tree8 ["A", "C", "E"]
    rfl (by decide) (by decide) (by decide) (by rfl)

end Phylo
